import Mathlib

/-!
Verification of the local RAG review pipeline of `lexfor/crypto-exchange-front`.

The development embeds, as Lean functions, the content chunker and indexing
loop of `.ai-context/build_index.ts`, the retrieval ranking of
`.ai-context/retrieve.ts`, and the review-call retry, context budgeting and
severity gating of `.github/hooks/pre-commit-review-local-rag.ts`, and
proves the spec's claims about them.
-/

/-! ## Content chunker (`splitToChunks` in `.ai-context/build_index.ts`) -/

/-- A chunk as produced by `splitToChunks`: the joined text together with its
1-indexed inclusive line range. -/
structure LineChunk where
  text : String
  startLine : Nat
  endLine : Nat
deriving DecidableEq, Repr

/-- Drop one leading carriage return from the reversed accumulator: the
`\r` that directly precedes a `\n` belongs to the separator `/\r?\n/`. -/
def stripCR (cur : List Char) : List Char :=
  match cur with
  | '\r' :: t => t
  | _ => cur

/-- Splitting a character list on the line separator `/\r?\n/`;
`cur` is the reversed accumulator of the current line. -/
def splitLinesGo : List Char → List Char → List String
  | [], cur => [String.mk cur.reverse]
  | ch :: rest, cur =>
    if ch = '\n' then String.mk (stripCR cur).reverse :: splitLinesGo rest []
    else splitLinesGo rest (ch :: cur)

/-- JavaScript `sourceText.split(/\r?\n/)`: the list of lines of a string,
splitting on `\n` or `\r\n`. The empty string yields one empty line, as in
JavaScript. -/
def splitLines (s : String) : List String :=
  splitLinesGo s.data []

/-- Number of lines of the input, i.e. `lines.length` in `splitToChunks`. -/
def numLines (s : String) : Nat :=
  (splitLines s).length

/-- JavaScript `cur.join("\n")`. -/
def joinLines (ls : List String) : String :=
  String.intercalate "\n" ls

/-- The inner `while` of `splitToChunks`: starting with accumulated character
count `len`, the number of consecutive lines of `ls` consumed while
`len + lines[i].length < maxChars`, with `len` growing by
`lines[i].length + 1` per consumed line. -/
def fitCount (maxChars : Nat) : Nat → List String → Nat
  | _, [] => 0
  | len, l :: ls =>
    if len + l.length < maxChars then fitCount maxChars (len + l.length + 1) ls + 1
    else 0

/-- The outer `while (i < lines.length)` loop of `splitToChunks`, with the
cursor `i` into `lines` made explicit.  The loop in the source has no
built-in bound, so the embedding takes a `fuel` argument counting remaining
iterations: `none` means the loop did not finish within `fuel` iterations
(and `∀ fuel, … = none` is genuine non-termination of the source loop).
Per iteration: `i1` is the cursor after the inner accumulation loop,
`i2` is the cursor after the overlap back-step
`i = Math.max(i - Math.floor(overlap / 80), 0)` (truncated subtraction on
`Nat` is exactly `Math.max (· - ·) 0`); if lines were accumulated they are
emitted as one chunk `{text: cur.join("\n"), startLine, endLine}`, otherwise
the single line `lines[i]` (at the post-back-step cursor, as in the source)
is emitted and the cursor advances by one. -/
def chunkLoop (lines : List String) (maxChars overlap : Nat) : Nat → Nat → Option (List LineChunk)
  | 0, i => if lines.length ≤ i then some [] else none
  | fuel + 1, i =>
    if lines.length ≤ i then some []
    else
      let c := fitCount maxChars 0 (lines.drop i)
      let i1 := i + c
      let i2 := if 0 < overlap ∧ i1 < lines.length then i1 - overlap / 80 else i1
      if 0 < c then
        (chunkLoop lines maxChars overlap fuel i2).map
          (fun cs => { text := joinLines ((lines.drop i).take c), startLine := i + 1, endLine := i1 } :: cs)
      else
        (chunkLoop lines maxChars overlap fuel (i2 + 1)).map
          (fun cs => { text := lines.getD i2 "", startLine := i + 1, endLine := i2 + 1 } :: cs)

/-- `splitToChunks(sourceText, maxChars, overlap)` from
`.ai-context/build_index.ts`, with the explicit iteration bound `fuel` of
`chunkLoop`. -/
def splitToChunks (sourceText : String) (maxChars overlap fuel : Nat) : Option (List LineChunk) :=
  chunkLoop (splitLines sourceText) maxChars overlap fuel 0

/-- The source `while` loop runs forever on this input: no iteration bound
suffices. -/
def chunkerDiverges (sourceText : String) (maxChars overlap : Nat) : Prop :=
  ∀ fuel, splitToChunks sourceText maxChars overlap fuel = none

/-- The 1-indexed inclusive line interval `[startLine, endLine]` of a chunk,
as a list of line numbers. -/
def chunkRange (c : LineChunk) : List Nat :=
  List.range' c.startLine (c.endLine + 1 - c.startLine)

example : splitLines "ab\ncd" = ["ab", "cd"] := by decide
example : splitLines "" = [""] := by decide
example : splitLines "a\r\nb" = ["a", "b"] := by decide
example : splitToChunks "ab\ncd" 10 0 2 = some [⟨"ab\ncd", 1, 2⟩] := by decide
example : splitToChunks "ab\ncd" 1 0 2 = some [⟨"ab", 1, 1⟩, ⟨"cd", 2, 2⟩] := by decide
example : splitToChunks "" 5 0 1 = some [⟨"", 1, 1⟩] := by decide

/-! ## Index builder (`main` in `.ai-context/build_index.ts`, lines 122-188)

`main`'s indexing loop (lines 139-172) processes each enumerated file
inside a per-file `try`: it stats and reads the file, chunks it, and for
each chunk requests an embedding; the first successful embedding fixes
`embeddingDimension` (line 153), and a later vector of a different length
throws an `IndexingError` (line 156).  The `catch` at line 169 receives
every failure inside the file — read errors, `embedText` failures and the
`IndexingError` alike — logs a `console.warn` and continues with the next
file, keeping all chunks pushed so far.  After the loop the index
`{version, embedModel, dim, createdAt, chunks}` is always assembled and
persisted (lines 174-182) and the process exits 0; the outer `catch`
(exit 1) is reachable only from configuration loading or index writing,
which are outside this model.  File enumeration, reading, chunking and the
embedding collaborator are abstracted into per-file outcomes: a read
failure, or the file's chunk texts each paired with the outcome of its
embedding call.  The clock-dependent `createdAt` is omitted. -/

/-- A chunk of the assembled index, restricted to the fields the claims
constrain: source file, chunk text, and the embedding vector together with
the model id that was passed to `embedText` to produce it (the source also
stores `id`, `hash` and the line range, which no claim constrains). -/
structure BChunk where
  file : String
  text : String
  model : String
  vector : List ℚ
deriving DecidableEq, Repr

/-- The outcome of one `embedText` call: the call threw, or it returned
this vector. -/
inductive EmbedOutcome where
  | embedError
  | embedded (v : List ℚ)
deriving DecidableEq, Repr

/-- The outcome of reading and chunking one enumerated file: a read
failure, or the file's chunk texts each paired with its embedding call's
outcome. -/
inductive FileOutcome where
  | readError (file : String)
  | readOk (file : String) (chunkEmbeds : List (String × EmbedOutcome))
deriving DecidableEq, Repr

/-- The assembled index `{version, embedModel, dim, createdAt, chunks}`
without the clock-dependent `createdAt`; `dim` is `-1` when no chunk was
embedded, as in the source's initialisation (line 137). -/
structure BuiltIndex where
  version : Nat
  embedModel : String
  dim : Int
  chunks : List BChunk
deriving DecidableEq, Repr

/-- The per-chunk loop of one file (lines 149-168).  `d` is
`embeddingDimension` (`none` standing for the `-1` sentinel): the first
successful embedding fixes it; an `embedText` failure or a vector whose
length differs from the fixed dimension throws, which the per-file `catch`
(line 169) turns into skipping the rest of this file — chunks already
pushed stay, and the fixed dimension stays fixed. -/
def processChunks (model file : String) :
    List (String × EmbedOutcome) → Option Nat → Option Nat × List BChunk
  | [], d => (d, [])
  | (t, e) :: rest, d =>
    match e with
    | .embedError => (d, [])
    | .embedded v =>
      match d with
      | none =>
        let p := processChunks model file rest (some v.length)
        (p.1, BChunk.mk file t model v :: p.2)
      | some dim =>
        if v.length = dim then
          let p := processChunks model file rest (some dim)
          (p.1, BChunk.mk file t model v :: p.2)
        else (some dim, [])

/-- The per-file loop (lines 139-172): an unreadable file is caught,
warned about and skipped; the dimension state and the accumulated chunks
flow on to the next file. -/
def buildFiles (model : String) :
    List FileOutcome → Option Nat → Option Nat × List BChunk
  | [], d => (d, [])
  | .readError _ :: rest, d => buildFiles model rest d
  | .readOk f cts :: rest, d =>
    let p := processChunks model f cts d
    let q := buildFiles model rest p.1
    (q.1, p.2 ++ q.2)

/-- The index `main` assembles and persists (lines 174-182). -/
def buildIndex (embedModel : String) (files : List FileOutcome) : BuiltIndex :=
  let p := buildFiles embedModel files none
  { version := 1, embedModel := embedModel,
    dim := (match p.1 with | some n => (n : Int) | none => -1), chunks := p.2 }

/-- A completed run of `main`'s indexing loop: the persisted index together
with the process exit status, which is 0 on this path (line 183 is always
reached; `process.exit(1)` fires only in the outer `catch`, i.e. for
configuration or storage failures outside this model). -/
def buildRun (embedModel : String) (files : List FileOutcome) : BuiltIndex × Nat :=
  (buildIndex embedModel files, 0)

example :
    buildIndex "m" [.readOk "a" [("x", .embedded [(1 : ℚ), 2]), ("y", .embedded [(3 : ℚ), 4])]] =
      BuiltIndex.mk 1 "m" 2
        [BChunk.mk "a" "x" "m" [(1 : ℚ), 2], BChunk.mk "a" "y" "m" [(3 : ℚ), 4]] := by decide

/-! ## Review result and gating
(`main` in `.github/hooks/pre-commit-review-local-rag.ts`, lines 150-207)

The review path calls `callLLM` (line 169) and gates on its result: a
falsy result (`extractJSON` only ever returns an object or `null`, so
falsy means `null`) prints a diagnostic and exits 1 (lines 171-174); the
`inlineComments` and `generalComments` fields are then read through an
`Array.isArray` guard that substitutes `[]` for a missing or non-array
field (lines 176-177); the commit is blocked (exit 1) iff some inline
comment's `severity` is an `includes`-member of
`config.blockOnSeverities` (lines 193-199), else the review passes with
exit 0 (lines 201-202). -/

/-- An element of the parsed `inlineComments` array, with the fields of
the prompt's schema; the gate reads only `severity` (a JSON string,
compared against the configured severity strings). -/
structure Finding where
  file : String
  line : Nat
  comment : String
  severity : String
deriving DecidableEq, Repr

/-- A field of the parsed JSON object that the hook expects to be an
array: missing, present but not an array, or an array of elements. -/
inductive JsonArrayField (α : Type) where
  | missing
  | notArray
  | array (xs : List α)
deriving DecidableEq, Repr

/-- The parsed review result as the gate consumes it: the two
possibly-missing, possibly-non-array fields of the JSON object. -/
structure RagReview where
  inlineComments : JsonArrayField Finding
  generalComments : JsonArrayField String
deriving DecidableEq, Repr

/-- `Array.isArray(x) ? x : []` (lines 176-177). -/
def arrayOrEmpty {α : Type} : JsonArrayField α → List α
  | .array xs => xs
  | _ => []

/-- The gating decision. -/
inductive Decision where
  | allow
  | block
deriving DecidableEq, Repr

/-- The gating of `main` (lines 171-202): a `null` review result exits 1
(fail-closed); otherwise block iff
`inlineComments.some(c => blockOnSeverities.includes(c.severity))` over
the `Array.isArray`-guarded list. -/
def gateDecision (reviewResult : Option RagReview) (blockOn : List String) : Decision :=
  match reviewResult with
  | none => .block
  | some r =>
    if (arrayOrEmpty r.inlineComments).any (fun c => blockOn.contains c.severity) then .block
    else .allow

/-- The review CLI's exit status: 0 on ALLOW (line 202), 1 on BLOCK
(lines 173 and 198). -/
def gateExit : Decision → Nat
  | .allow => 0
  | .block => 1

/-! ## Review-call wrapper with retry
(`callLLM` in `.github/hooks/pre-commit-review-local-rag.ts`,
lines 111-127)

`callLLM` loops `attempt = 0 .. retries`.  Each iteration calls the model
and runs `extractJSON` on the response: a parsed object returns
immediately; a successful call whose response yields no parseable JSON
falls through the `try` and retries immediately, with no backoff; a call
error is caught — on the final attempt it is rethrown as an `Error`
(lines 119-120), otherwise the loop sleeps `2 ** attempt` seconds
(line 123) and retries.  Falling off the loop returns `null`.  The
generative call and the JSON extraction are abstracted into a per-attempt
outcome function. -/

/-- The outcome of one attempt: the `ollama.generate` call threw; or the
call succeeded but `extractJSON` returned `null`; or a parsed object was
obtained. -/
inductive AttemptOutcome where
  | callError
  | unparseable
  | parsed (r : RagReview)
deriving DecidableEq

/-- What `callLLM` does for its caller: raise the wrapped `Error` (thrown
on a final-attempt call error), or return the parsed object or `null`. -/
inductive CallResult where
  | raised
  | returned (r : Option RagReview)
deriving DecidableEq, Repr

/-- The retry loop from attempt number `attempt` with `rem` loop
iterations left (`rem = retries + 1 - attempt`; the wait unit is one
second, `2 ** attempt * 1000` milliseconds in the source).  Returns the
call result together with the backoff waits performed, in order. -/
def callLLMGo (outcomes : Nat → AttemptOutcome) (retries : Nat) :
    Nat → Nat → CallResult × List Nat
  | _, 0 => (.returned none, [])
  | attempt, rem + 1 =>
    match outcomes attempt with
    | .parsed r => (.returned (some r), [])
    | .unparseable => callLLMGo outcomes retries (attempt + 1) rem
    | .callError =>
      if attempt = retries then (.raised, [])
      else
        let p := callLLMGo outcomes retries (attempt + 1) rem
        (p.1, 2 ^ attempt :: p.2)

/-- `callLLM(modelName, prompt, retries)`: the loop entered at attempt 0
with `retries + 1` iterations available. -/
def callLLM (outcomes : Nat → AttemptOutcome) (retries : Nat) : CallResult × List Nat :=
  callLLMGo outcomes retries 0 (retries + 1)

/-! ## Context budgeter
(`formatContexts` in `.github/hooks/pre-commit-review-local-rag.ts`,
lines 135-145)

Formatted chunk blocks `"FILE: <path> [<start>-<end>]\n<text>\n---\n"`
are appended in ranking order until the first block that would push the
buffer past `maxChars`, at which point the loop breaks (line 141) —
blocks are atomic, never split. -/

/-- A chunk of the persisted index, as read by the retrieval and review
path (`{id, file, startLine, endLine, text, hash, vector}`). -/
structure Chunk where
  id : String
  file : String
  startLine : Nat
  endLine : Nat
  text : String
  hash : String
  vector : List ℚ
deriving DecidableEq, Repr

/-- The formatted context block of one chunk. -/
def formatBlock (c : Chunk) : String :=
  "FILE: " ++ c.file ++ " [" ++ toString c.startLine ++ "-" ++ toString c.endLine ++ "]\n"
    ++ c.text ++ "\n---\n"

/-- Concatenation of a list of strings, in order. -/
def concatStrings : List String → String
  | [] => ""
  | s :: rest => s ++ concatStrings rest

/-- The accumulation loop of `formatContexts` (lines 136-143): `break` at
the first block that would push the buffer past `maxChars`, append
otherwise; `acc` is the `formattedContext` buffer built so far. -/
def formatContextsGo (budget : Nat) : List Chunk → String → String
  | [], acc => acc
  | c :: cs, acc =>
    let b := formatBlock c
    if budget < acc.length + b.length then acc
    else formatContextsGo budget cs (acc ++ b)

/-- `formatContexts(contextChunks, maxChars)` from
`.github/hooks/pre-commit-review-local-rag.ts` lines 135-145: pack ranked
chunk blocks into at most `maxChars` characters, whole blocks only. -/
def formatContexts (chunks : List Chunk) (budget : Nat) : String :=
  formatContextsGo budget chunks ""

/-! ## Retrieval ranking (`retrieveForDiff` in `.ai-context/retrieve.ts`)

The source scores every index chunk by
`cosine(queryVector, chunk.vector)`, sorts with
`.sort((a, b) => b.score - a.score)` and keeps `.slice(0, config.topK)`.
The query embedding and the floating-point cosine arithmetic live in
external collaborators, so the score of a chunk's vector is abstracted as
the function `score`; the ranking properties below hold for every score
function, hence for the cosine scores.  JavaScript's `Array.prototype.sort`
is stable (ECMA-262), and with the comparator `b.score - a.score` it orders
by non-increasing score keeping tied elements in original order; this is
embedded as insertion sort with the relation `scoreRel`. -/

/-- Sort relation of the comparator `(a, b) => b.score - a.score`:
`a` may precede `b` iff `b`'s score is not larger. -/
def scoreRel (a b : Chunk × ℚ) : Prop :=
  b.2 ≤ a.2

instance : DecidableRel scoreRel :=
  fun a b => inferInstanceAs (Decidable (b.2 ≤ a.2))

instance : IsTotal (Chunk × ℚ) scoreRel :=
  ⟨fun a b => le_total b.2 a.2⟩

instance : IsTrans (Chunk × ℚ) scoreRel :=
  ⟨fun _ _ _ h₁ h₂ => le_trans h₂ h₁⟩

/-- Each chunk paired with its similarity score,
`index.chunks.map(chunk => ({chunk, score: cosine(queryVector, chunk.vector)}))`. -/
def scoredChunks (score : List ℚ → ℚ) (chunks : List Chunk) : List (Chunk × ℚ) :=
  chunks.map (fun c => (c, score c.vector))

/-- The stable descending-by-score sort
`.sort((a, b) => b.score - a.score)`. -/
def sortByScore (l : List (Chunk × ℚ)) : List (Chunk × ℚ) :=
  List.insertionSort scoreRel l

/-- `retrieveForDiff`'s ranking pipeline: score all chunks, sort by
descending score (stable), keep the first `topK`, return the chunks. -/
def retrieveForDiff (score : List ℚ → ℚ) (topK : Nat) (chunks : List Chunk) : List Chunk :=
  ((sortByScore (scoredChunks score chunks)).take topK).map Prod.fst

/-! ## Theorems -/

/-- Invariant of the per-chunk loop with the dimension already fixed at
`k`: it stays `k`, and every chunk produced carries the model id passed to
the embedding call and a vector of dimension `k`. -/
theorem processChunks_some (model file : String) :
    ∀ (cts : List (String × EmbedOutcome)) (k : Nat),
      (processChunks model file cts (some k)).1 = some k ∧
      ∀ c ∈ (processChunks model file cts (some k)).2,
        c.model = model ∧ c.vector.length = k := by
  intro cts
  induction cts with
  | nil => intro k; exact ⟨rfl, by simp [processChunks]⟩
  | cons p rest ih =>
    intro k
    obtain ⟨t, e⟩ := p
    cases e with
    | embedError => exact ⟨rfl, by simp [processChunks]⟩
    | embedded v =>
      simp only [processChunks]
      by_cases hv : v.length = k
      · rw [if_pos hv]
        refine ⟨(ih k).1, fun c hc => ?_⟩
        rcases List.mem_cons.mp hc with hc | hc
        · subst hc; exact ⟨rfl, hv⟩
        · exact (ih k).2 c hc
      · rw [if_neg hv]
        exact ⟨rfl, by simp⟩

/-- Invariant of the per-chunk loop with the dimension unfixed: every
produced chunk carries the requested model id, and either nothing was
embedded and the dimension stays unfixed, or the dimension is fixed and
every produced chunk's vector has that dimension. -/
theorem processChunks_none (model file : String) :
    ∀ cts : List (String × EmbedOutcome),
      (∀ c ∈ (processChunks model file cts none).2, c.model = model) ∧
      (((processChunks model file cts none).1 = none ∧
          (processChunks model file cts none).2 = []) ∨
        ∃ k, (processChunks model file cts none).1 = some k ∧
          ∀ c ∈ (processChunks model file cts none).2, c.vector.length = k) := by
  intro cts
  cases cts with
  | nil => exact ⟨by simp [processChunks], Or.inl ⟨rfl, rfl⟩⟩
  | cons p rest =>
    obtain ⟨t, e⟩ := p
    cases e with
    | embedError => exact ⟨by simp [processChunks], Or.inl ⟨rfl, rfl⟩⟩
    | embedded v =>
      simp only [processChunks]
      have h := processChunks_some model file rest v.length
      refine ⟨fun c hc => ?_, Or.inr ⟨v.length, h.1, fun c hc => ?_⟩⟩
      · rcases List.mem_cons.mp hc with hc | hc
        · subst hc; rfl
        · exact (h.2 c hc).1
      · rcases List.mem_cons.mp hc with hc | hc
        · subst hc; rfl
        · exact (h.2 c hc).2

/-- Invariant of the per-file loop with the dimension already fixed at
`k`. -/
theorem buildFiles_some (model : String) :
    ∀ (files : List FileOutcome) (k : Nat),
      (buildFiles model files (some k)).1 = some k ∧
      ∀ c ∈ (buildFiles model files (some k)).2, c.model = model ∧ c.vector.length = k := by
  intro files
  induction files with
  | nil => intro k; exact ⟨rfl, by simp [buildFiles]⟩
  | cons fo rest ih =>
    intro k
    cases fo with
    | readError f => exact ih k
    | readOk f cts =>
      simp only [buildFiles]
      have hp := processChunks_some model f cts k
      rw [hp.1]
      refine ⟨(ih k).1, fun c hc => ?_⟩
      rcases List.mem_append.mp hc with hc | hc
      · exact hp.2 c hc
      · exact (ih k).2 c hc

/-- Invariant of the whole indexing loop: every chunk carries the
configured model id, and either no chunk was embedded, or the dimension is
fixed and every chunk's vector has that dimension. -/
theorem buildFiles_none (model : String) :
    ∀ files : List FileOutcome,
      (∀ c ∈ (buildFiles model files none).2, c.model = model) ∧
      (((buildFiles model files none).1 = none ∧ (buildFiles model files none).2 = []) ∨
        ∃ k, (buildFiles model files none).1 = some k ∧
          ∀ c ∈ (buildFiles model files none).2, c.vector.length = k) := by
  intro files
  induction files with
  | nil => exact ⟨by simp [buildFiles], Or.inl ⟨rfl, rfl⟩⟩
  | cons fo rest ih =>
    cases fo with
    | readError f => exact ih
    | readOk f cts =>
      simp only [buildFiles]
      obtain ⟨hmod, hdisj⟩ := processChunks_none model f cts
      rcases hdisj with ⟨hd, hcs⟩ | ⟨k, hd, hlen⟩
      · rw [hd, hcs]
        obtain ⟨hmod2, hdisj2⟩ := ih
        refine ⟨by simpa using hmod2, ?_⟩
        rcases hdisj2 with ⟨hd2, hcs2⟩ | ⟨k, hd2, hlen2⟩
        · exact Or.inl ⟨hd2, by simpa using hcs2⟩
        · exact Or.inr ⟨k, hd2, by simpa using hlen2⟩
      · rw [hd]
        have hbf := buildFiles_some model rest k
        refine ⟨fun c hc => ?_, Or.inr ⟨k, hbf.1, fun c hc => ?_⟩⟩
        · rcases List.mem_append.mp hc with hc | hc
          · exact hmod c hc
          · exact (hbf.2 c hc).1
        · rcases List.mem_append.mp hc with hc | hc
          · exact hlen c hc
          · exact (hbf.2 c hc).2

/-- C6: every index the builder assembles and persists satisfies the
index invariant — it records the configured embedding model id, and every
chunk was embedded with that model id and has a vector whose length
equals the declared dimensionality `dim`.  The theorem has no hypothesis:
it covers every run over any file set, including runs in which files fail
and are skipped and runs in which a dimension mismatch was caught and the
rest of that file skipped. -/
theorem buildIndex_invariant (embedModel : String) (files : List FileOutcome) :
    (buildIndex embedModel files).embedModel = embedModel ∧
    ∀ c ∈ (buildIndex embedModel files).chunks,
      (c.vector.length : Int) = (buildIndex embedModel files).dim ∧
      c.model = (buildIndex embedModel files).embedModel := by
  obtain ⟨hmod, hdisj⟩ := buildFiles_none embedModel files
  refine ⟨rfl, fun c hc => ?_⟩
  rcases hdisj with ⟨hd, hcs⟩ | ⟨k, hd, hlen⟩
  · rw [show (buildIndex embedModel files).chunks =
        (buildFiles embedModel files none).2 from rfl, hcs] at hc
    cases hc
  · refine ⟨?_, hmod c hc⟩
    have hdim : (buildIndex embedModel files).dim = (k : Int) := by
      show (match (buildFiles embedModel files none).1 with
        | some n => (n : Int) | none => -1) = (k : Int)
      rw [hd]
    rw [hdim, hlen c hc]

/-- C1: the program does not abort on an embedding-dimension mismatch.
On a file whose chunks embed to a 2-vector and then a 1-vector, followed
by a further chunk and a second file, the `IndexingError` thrown at
`build_index.ts:156` is caught by the per-file `catch` at line 169: the
rest of the first file is skipped as a per-file failure, the build
continues with the next file, an index is assembled and persisted, and
the run exits 0 — not the claimed whole-build abort with `IndexingError`,
a non-zero exit and no persisted index. -/
theorem buildIndex_mismatch_recovered :
    buildRun "m"
      [.readOk "a" [("x", .embedded [(1 : ℚ), 2]), ("y", .embedded [(3 : ℚ)]),
                    ("z", .embedded [(4 : ℚ), 5])],
       .readOk "b" [("w", .embedded [(6 : ℚ), 7])]] =
      (BuiltIndex.mk 1 "m" 2
        [BChunk.mk "a" "x" "m" [(1 : ℚ), 2], BChunk.mk "b" "w" "m" [(6 : ℚ), 7]], 0) := by
  decide

/-- C2: the gating decision is exactly fail-closed on a missing result and
otherwise blocks iff some inline finding's severity is configured as
blocking: a `null` review result gives BLOCK with exit 1; a parsed result
gives BLOCK iff some element of the (`Array.isArray`-guarded) inline
comments has its severity in `blockOn`, and ALLOW otherwise; with
`blockOn = ["blocker"]`, a result whose inline findings are all `"nit"` or
`"warning"` gives ALLOW (exit 0) and prepending one `"blocker"` finding
gives BLOCK (exit 1). -/
theorem gateDecision_spec (blockOn : List String) :
    (gateDecision none blockOn = .block ∧ gateExit (gateDecision none blockOn) = 1) ∧
    (∀ r : RagReview,
      (gateDecision (some r) blockOn = .block ↔
        ∃ f ∈ arrayOrEmpty r.inlineComments, f.severity ∈ blockOn) ∧
      (gateDecision (some r) blockOn = .allow ↔
        ¬ ∃ f ∈ arrayOrEmpty r.inlineComments, f.severity ∈ blockOn)) ∧
    (∀ r : RagReview,
      (∀ f ∈ arrayOrEmpty r.inlineComments, f.severity = "nit" ∨ f.severity = "warning") →
      gateDecision (some r) ["blocker"] = .allow ∧
        gateExit (gateDecision (some r) ["blocker"]) = 0) ∧
    (∀ (r : RagReview) (f : Finding), f.severity = "blocker" →
      gateDecision
          (some (RagReview.mk (.array (f :: arrayOrEmpty r.inlineComments)) r.generalComments))
          ["blocker"] = .block ∧
      gateExit (gateDecision
          (some (RagReview.mk (.array (f :: arrayOrEmpty r.inlineComments)) r.generalComments))
          ["blocker"]) = 1) := by
  refine ⟨⟨rfl, rfl⟩, fun r => ?_, fun r h => ?_, fun r f h => ?_⟩
  · have hkey : ((arrayOrEmpty r.inlineComments).any fun c => blockOn.contains c.severity)
        = true ↔ (∃ f ∈ arrayOrEmpty r.inlineComments, f.severity ∈ blockOn) := by
      simp
    cases hc : (arrayOrEmpty r.inlineComments).any (fun c => blockOn.contains c.severity) with
    | false =>
      have hval : gateDecision (some r) blockOn = .allow := by
        simp only [gateDecision, hc]; rfl
      have hnex : ¬ ∃ f ∈ arrayOrEmpty r.inlineComments, f.severity ∈ blockOn := by
        rw [← hkey, hc]; simp
      constructor
      · rw [hval]; simp [hnex]
      · rw [hval]; simp [hnex]
    | true =>
      have hval : gateDecision (some r) blockOn = .block := by
        simp only [gateDecision, hc]; rfl
      have hex : ∃ f ∈ arrayOrEmpty r.inlineComments, f.severity ∈ blockOn := hkey.mp hc
      constructor
      · rw [hval]; simp [hex]
      · rw [hval]; simp [hex]
  · have hc : ((arrayOrEmpty r.inlineComments).any
        fun g => (["blocker"] : List String).contains g.severity) = false := by
      simp only [List.any_eq_false]
      intro g hg
      rcases h g hg with h' | h' <;> rw [h'] <;> decide
    have hval : gateDecision (some r) ["blocker"] = .allow := by
      simp only [gateDecision, hc]; rfl
    exact ⟨hval, by rw [hval]; rfl⟩
  · have hc : ((arrayOrEmpty (RagReview.mk (.array (f :: arrayOrEmpty r.inlineComments))
        r.generalComments).inlineComments).any
          fun g => (["blocker"] : List String).contains g.severity) = true := by
      simp [arrayOrEmpty, h]
    have hval : gateDecision
        (some (RagReview.mk (.array (f :: arrayOrEmpty r.inlineComments)) r.generalComments))
        ["blocker"] = .block := by
      simp only [gateDecision, hc]; rfl
    exact ⟨hval, by rw [hval]; rfl⟩

/-- Witness for `gateDecision_spec` at a concrete configuration and
concrete review results. -/
theorem gateDecision_spec_witness :
    gateDecision none ["blocker"] = .block ∧
    gateDecision
      (some (RagReview.mk
        (.array [Finding.mk "a.ts" 1 "style" "nit", Finding.mk "a.ts" 2 "care" "warning"])
        (.array []))) ["blocker"] = .allow ∧
    gateDecision
      (some (RagReview.mk
        (.array (Finding.mk "a.ts" 3 "broken" "blocker" ::
          arrayOrEmpty (JsonArrayField.array
            [Finding.mk "a.ts" 1 "style" "nit", Finding.mk "a.ts" 2 "care" "warning"])))
        (.array []))) ["blocker"] = .block :=
  ⟨(gateDecision_spec ["blocker"]).1.1,
   ((gateDecision_spec ["blocker"]).2.2.1
      (RagReview.mk
        (.array [Finding.mk "a.ts" 1 "style" "nit", Finding.mk "a.ts" 2 "care" "warning"])
        (.array [])) (by decide)).1,
   ((gateDecision_spec ["blocker"]).2.2.2
      (RagReview.mk
        (.array [Finding.mk "a.ts" 1 "style" "nit", Finding.mk "a.ts" 2 "care" "warning"])
        (.array []))
      (Finding.mk "a.ts" 3 "broken" "blocker") rfl).1⟩

/-- C10: a parseable review result whose `inlineComments` field is missing
or not an array is treated as having an empty inline-findings list
(`Array.isArray(x) ? x : []`), and likewise for `generalComments`; with no
inline findings, no severity can match, so for every such result and every
`blockOnSeverities` configuration the decision is ALLOW with exit 0. -/
theorem gate_schema_invalid_allow (r : RagReview) (blockOn : List String)
    (h : r.inlineComments = .missing ∨ r.inlineComments = .notArray) :
    gateDecision (some r) blockOn = .allow ∧
    gateExit (gateDecision (some r) blockOn) = 0 ∧
    arrayOrEmpty r.inlineComments = [] ∧
    ((r.generalComments = .missing ∨ r.generalComments = .notArray) →
      arrayOrEmpty r.generalComments = []) := by
  have hie : arrayOrEmpty r.inlineComments = [] := by
    rcases h with h | h <;> rw [h] <;> rfl
  have hval : gateDecision (some r) blockOn = .allow := by
    simp only [gateDecision, hie]
    rfl
  refine ⟨hval, by rw [hval]; rfl, hie, fun hg => ?_⟩
  rcases hg with hg | hg <;> rw [hg] <;> rfl

/-- Witness for `gate_schema_invalid_allow` on a result whose
`inlineComments` is a non-array value and whose `generalComments` is
missing. -/
theorem gate_schema_invalid_allow_witness :
    gateDecision (some (RagReview.mk .notArray .missing)) ["blocker"] = .allow ∧
    gateExit (gateDecision (some (RagReview.mk .notArray .missing)) ["blocker"]) = 0 ∧
    arrayOrEmpty (RagReview.mk .notArray .missing).inlineComments = [] ∧
    arrayOrEmpty (RagReview.mk .notArray .missing).generalComments = ([] : List String) :=
  ⟨(gate_schema_invalid_allow (RagReview.mk .notArray .missing) ["blocker"] (Or.inr rfl)).1,
   (gate_schema_invalid_allow (RagReview.mk .notArray .missing) ["blocker"] (Or.inr rfl)).2.1,
   (gate_schema_invalid_allow (RagReview.mk .notArray .missing) ["blocker"] (Or.inr rfl)).2.2.1,
   (gate_schema_invalid_allow (RagReview.mk .notArray .missing) ["blocker"]
      (Or.inr rfl)).2.2.2 (Or.inl rfl)⟩

/-- The retry loop on a pattern with no parsed result: if the final
attempt's call errors the wrapped error is raised, otherwise `null` is
returned; a backoff of `2 ^ k` is performed exactly for the call-error
attempts `k` before the final attempt, and never for unparseable
responses. -/
theorem callLLMGo_exhaust (outcomes : Nat → AttemptOutcome) (retries : Nat) :
    ∀ (rem attempt : Nat), attempt + rem = retries + 1 → attempt ≤ retries →
      (∀ k, attempt ≤ k → k ≤ retries →
        outcomes k = .callError ∨ outcomes k = .unparseable) →
      callLLMGo outcomes retries attempt rem =
        ((if outcomes retries = .callError then CallResult.raised else .returned none),
          ((List.range' attempt (rem - 1)).filter
            (fun k => decide (outcomes k = .callError))).map (fun a => 2 ^ a)) := by
  intro rem
  induction rem with
  | zero =>
    intro attempt h hle hfail
    omega
  | succ rem ih =>
    intro attempt h hle hfail
    have hout := hfail attempt (Nat.le_refl _) hle
    simp only [callLLMGo, Nat.add_sub_cancel]
    rcases hout with hout | hout
    · rw [hout]
      by_cases hfin : attempt = retries
      · rw [if_pos hfin]
        have hrem : rem = 0 := by omega
        subst hrem
        subst hfin
        simp [hout]
      · rw [if_neg hfin]
        have hrec := ih (attempt + 1) (by omega) (by omega)
          (fun k hk hk' => hfail k (by omega) hk')
        rw [hrec]
        have hrem1 : rem = (rem - 1) + 1 := by omega
        rw [show List.range' attempt rem =
            attempt :: List.range' (attempt + 1) (rem - 1) by
          conv_lhs => rw [hrem1]
          rw [List.range'_succ]]
        rw [List.filter_cons]
        simp [hout, Nat.add_sub_cancel]
    · rw [hout]
      by_cases hrem0 : rem = 0
      · subst hrem0
        have hfin : attempt = retries := by omega
        subst hfin
        simp [callLLMGo, hout]
      · have hrec := ih (attempt + 1) (by omega) (by omega)
          (fun k hk hk' => hfail k (by omega) hk')
        rw [hrec]
        have hrem1 : rem = (rem - 1) + 1 := by omega
        rw [show List.range' attempt rem =
            attempt :: List.range' (attempt + 1) (rem - 1) by
          conv_lhs => rw [hrem1]
          rw [List.range'_succ]]
        rw [List.filter_cons]
        simp [hout, Nat.add_sub_cancel]

/-- C8 (amended): `callLLM` makes attempts `0 .. retries`; an attempt
whose call succeeds but yields no parseable JSON retries immediately with
no backoff; a call-error attempt with attempts remaining waits an
exponentially increasing backoff of `2 ^ attempt` time units and retries;
after all attempts, the result is the raised wrapped error if the final
attempt's call errored, and a `null` no-result otherwise — so for every
pattern of call errors and unparseable responses, the waits performed are
exactly `2 ^ k` for the call-error attempts `k < retries`, in order. -/
theorem callLLM_exhaust_general (outcomes : Nat → AttemptOutcome) (retries : Nat)
    (hfail : ∀ k, k ≤ retries → outcomes k = .callError ∨ outcomes k = .unparseable) :
    callLLM outcomes retries =
      ((if outcomes retries = .callError then CallResult.raised else .returned none),
        ((List.range retries).filter (fun k => decide (outcomes k = .callError))).map
          (fun a => 2 ^ a)) := by
  have h := callLLMGo_exhaust outcomes retries (retries + 1) 0 (by omega) (Nat.zero_le _)
    (fun k _ hk => hfail k hk)
  rw [callLLM, h]
  simp [List.range_eq_range']

/-- Witness for `callLLM_exhaust_general`: three attempts where attempt 0
call-errors (backoff 1), attempt 1 is unparseable (no backoff), and the
final attempt 2 call-errors, so the wrapped error is raised. -/
theorem callLLM_exhaust_general_witness :
    callLLM (fun k => if k = 1 then AttemptOutcome.unparseable else .callError) 2 =
      (.raised, [1]) := by
  have h := callLLM_exhaust_general
    (fun k => if k = 1 then AttemptOutcome.unparseable else .callError) 2
    (fun k hk => by
      interval_cases k
      · exact Or.inl rfl
      · exact Or.inr rfl
      · exact Or.inl rfl)
  rw [h]
  decide

/-- C8 counterexample: the claim fails on the code in two ways.  With
every attempt a call error, the final attempt raises the wrapped error
instead of returning a no-result, and the backoffs performed are
`2 ^ 0, 2 ^ 1` (attempts counted from 0), not `2 ^ 1, 2 ^ 2`; with every
attempt an unparseable response, no backoff is performed at all even
though attempts remain after each failure. -/
theorem callLLM_claim_cex :
    callLLM (fun _ => AttemptOutcome.callError) 2 = (.raised, [1, 2]) ∧
    (callLLM (fun _ => AttemptOutcome.callError) 2).1 ≠ .returned none ∧
    callLLM (fun _ => AttemptOutcome.unparseable) 2 = (.returned none, []) := by
  refine ⟨by decide, ?_, by decide⟩
  intro hcontra
  have : CallResult.raised = CallResult.returned none := by
    rw [← hcontra]
    decide
  cases this

/-- The accumulation loop: starting from a buffer within budget, the
final buffer stays within budget and extends the initial buffer by the
blocks of an in-order sublist (in fact a prefix) of the remaining
chunks. -/
theorem formatContextsGo_spec (budget : Nat) :
    ∀ (cs : List Chunk) (acc : String), acc.length ≤ budget →
      (formatContextsGo budget cs acc).length ≤ budget ∧
      ∃ sub : List Chunk, sub.Sublist cs ∧
        formatContextsGo budget cs acc = acc ++ concatStrings (sub.map formatBlock) := by
  intro cs
  induction cs with
  | nil =>
    intro acc hacc
    exact ⟨hacc, [], List.Sublist.refl [], by simp [formatContextsGo, concatStrings]⟩
  | cons c cs ih =>
    intro acc hacc
    simp only [formatContextsGo]
    by_cases hfit : budget < acc.length + (formatBlock c).length
    · rw [if_pos hfit]
      refine ⟨hacc, [], List.nil_sublist _, ?_⟩
      rw [show concatStrings (List.map formatBlock []) = "" from rfl, String.append_empty]
    · rw [if_neg hfit]
      obtain ⟨hlen, sub, hsub, heq⟩ := ih (acc ++ formatBlock c) (by
        rw [String.length_append]; omega)
      refine ⟨hlen, c :: sub, List.Sublist.cons₂ c hsub, ?_⟩
      rw [heq, String.append_assoc]
      rfl

/-- C9: for every ranked chunk list and budget, the assembled context
string has length at most the budget and is the concatenation of the
whole formatted blocks of an in-order sublist of the ranked chunks — no
block is partially included, and a block is appended only when adding it
does not push the buffer past the budget (the loop breaks at the first
block that would). -/
theorem formatContexts_spec (chunks : List Chunk) (budget : Nat) :
    (formatContexts chunks budget).length ≤ budget ∧
    ∃ sub : List Chunk, sub.Sublist chunks ∧
      formatContexts chunks budget = concatStrings (sub.map formatBlock) := by
  obtain ⟨hlen, sub, hsub, heq⟩ := formatContextsGo_spec budget chunks "" (Nat.zero_le _)
  exact ⟨hlen, sub, hsub, heq.trans rfl⟩

/-- Concatenation of adjacent `range'` intervals with step 1. -/
theorem range1_append (s m n : Nat) :
    List.range' s m ++ List.range' (s + m) n = List.range' s (m + n) := by
  rw [Nat.add_comm m n]
  have h := List.range'_append s m n 1
  rwa [Nat.one_mul] at h

/-- The inner accumulation loop never consumes more lines than remain. -/
theorem fitCount_le (maxChars : Nat) : ∀ (len : Nat) (ls : List String),
    fitCount maxChars len ls ≤ ls.length := by
  intro len ls
  induction ls generalizing len with
  | nil => simp [fitCount]
  | cons l ls ih =>
    simp only [fitCount, List.length_cons]
    split
    · exact Nat.succ_le_succ (ih _)
    · exact Nat.zero_le _

/-- When the overlap back-step `⌊overlap / 80⌋` is zero, every iteration of
the chunk loop advances the cursor, the loop finishes within
`lines.length - i` iterations, and the emitted chunks' line intervals
partition the remaining lines `i+1 … lines.length` in order. -/
theorem chunkLoop_ranges (lines : List String) (maxChars overlap : Nat)
    (hov : overlap / 80 = 0) :
    ∀ (fuel i : Nat), lines.length ≤ i + fuel →
      ∃ cs, chunkLoop lines maxChars overlap fuel i = some cs ∧
        (cs.map chunkRange).flatten = List.range' (i + 1) (lines.length - i) := by
  intro fuel
  induction fuel with
  | zero =>
    intro i hi
    have hle : lines.length ≤ i := by omega
    refine ⟨[], ?_, ?_⟩
    · simp [chunkLoop, hle]
    · have : lines.length - i = 0 := by omega
      simp [this]
  | succ fuel ih =>
    intro i hi
    by_cases hle : lines.length ≤ i
    · refine ⟨[], ?_, ?_⟩
      · simp [chunkLoop, hle]
      · have : lines.length - i = 0 := by omega
        simp [this]
    · have hlt : i < lines.length := by omega
      have hcle : fitCount maxChars 0 (lines.drop i) ≤ lines.length - i := by
        have := fitCount_le maxChars 0 (lines.drop i)
        simpa [List.length_drop] using this
      simp only [chunkLoop, hle, if_false]
      set c := fitCount maxChars 0 (lines.drop i) with hc
      have hi2 : (if 0 < overlap ∧ i + c < lines.length then i + c - overlap / 80
          else i + c) = i + c := by
        split
        · rw [hov]; omega
        · rfl
      rw [hi2]
      by_cases hcpos : 0 < c
      · rw [if_pos hcpos]
        obtain ⟨cs, hcs, hjoin⟩ := ih (i + c) (by omega)
        refine ⟨_, by rw [hcs]; rfl, ?_⟩
        simp only [List.map_cons, List.flatten_cons]
        rw [hjoin]
        have hr : chunkRange
            (LineChunk.mk (joinLines ((lines.drop i).take c)) (i + 1) (i + c)) =
            List.range' (i + 1) c := by
          simp only [chunkRange]
          congr 1
          omega
        rw [hr]
        have hap := range1_append (i + 1) c (lines.length - (i + c))
        rw [show i + 1 + c = i + c + 1 by omega] at hap
        rw [hap]
        congr 1
        omega
      · have hc0 : c = 0 := by omega
        rw [if_neg hcpos]
        obtain ⟨cs, hcs, hjoin⟩ := ih (i + c + 1) (by omega)
        refine ⟨_, by rw [hcs]; rfl, ?_⟩
        simp only [List.map_cons, List.flatten_cons]
        rw [hjoin]
        have hr : chunkRange
            (LineChunk.mk (lines.getD (i + c) "") (i + 1) (i + c + 1)) =
            List.range' (i + 1) 1 := by
          simp only [chunkRange]
          congr 1
          omega
        rw [hr]
        have hap := range1_append (i + 1) 1 (lines.length - (i + c + 1))
        rw [show i + 1 + 1 = i + c + 1 + 1 by omega] at hap
        rw [hap]
        congr 1
        omega

/-- Once the cursor is stuck at line index 1 of `["ab", "cd"]` with
`maxChars = 1` and `overlap = 80`, no amount of fuel finishes the loop: the
inner loop consumes nothing, the back-step returns the cursor to 0, and the
single-line emission advances it back to 1. -/
theorem chunkLoop_stuck_at_one :
    ∀ fuel, chunkLoop ["ab", "cd"] 1 80 fuel 1 = none := by
  intro fuel
  induction fuel with
  | zero => rfl
  | succ fuel ih =>
    simp only [chunkLoop]
    norm_num [fitCount, show ("cd" : String).length = 2 from rfl]
    exact ih

/-- C3 counterexample: with `maxChars = 1` and `overlapChars = 80` the
chunker loops forever on the two-line input `"ab\ncd"` — the back-step
`⌊overlap / 80⌋ = 1` undoes the cursor advance of the single-line emission
path, so the claimed forward progress for every `maxChars`/`overlapChars`
fails. -/
theorem splitToChunks_diverges_overlap80 : chunkerDiverges "ab\ncd" 1 80 := by
  intro fuel
  have hl : splitLines "ab\ncd" = ["ab", "cd"] := by decide
  unfold splitToChunks
  rw [hl]
  cases fuel with
  | zero => rfl
  | succ fuel =>
    simp only [chunkLoop]
    norm_num [fitCount, show ("ab" : String).length = 2 from rfl]
    exact chunkLoop_stuck_at_one fuel

/-- When the back-step is zero and every line is at least `maxChars` long,
the inner loop never consumes a line, so each remaining line is emitted as
its own single-line chunk and the loop runs exactly once per line. -/
theorem chunkLoop_all_long (lines : List String) (maxChars overlap : Nat)
    (hov : overlap / 80 = 0) (hlong : ∀ l ∈ lines, maxChars ≤ l.length) :
    ∀ (fuel i : Nat), lines.length ≤ i + fuel →
      chunkLoop lines maxChars overlap fuel i =
        some ((List.range' (i + 1) (lines.length - i)).map
          (fun k => LineChunk.mk (lines.getD (k - 1) "") k k)) := by
  intro fuel
  induction fuel with
  | zero =>
    intro i hi
    have hle : lines.length ≤ i := by omega
    simp [chunkLoop, hle, show lines.length - i = 0 by omega]
  | succ fuel ih =>
    intro i hi
    by_cases hle : lines.length ≤ i
    · simp [chunkLoop, hle, show lines.length - i = 0 by omega]
    · have hlt : i < lines.length := by omega
      have hdrop : lines.drop i = lines[i] :: lines.drop (i + 1) :=
        List.drop_eq_getElem_cons hlt
      have hgetD : lines.getD i "" = lines[i] := List.getD_eq_getElem lines "" hlt
      have hc : fitCount maxChars 0 (lines.drop i) = 0 := by
        rw [hdrop]
        simp only [fitCount]
        rw [if_neg]
        have := hlong lines[i] (List.getElem_mem hlt)
        omega
      simp only [chunkLoop, hle, if_false]
      rw [hc]
      simp only [Nat.add_zero]
      rw [if_neg (Nat.lt_irrefl 0)]
      have hi2 : (if 0 < overlap ∧ i < lines.length then i - overlap / 80 else i) = i := by
        split
        · rw [hov]; omega
        · rfl
      rw [hi2, ih (i + 1) (by omega)]
      have hn : lines.length - i = (lines.length - (i + 1)) + 1 := by omega
      rw [hn, List.range'_succ, List.map_cons]
      simp only [Option.map_some']
      simp

/-- C3 (amended): provided `overlapChars < 80` — so that the overlap
back-step `⌊overlapChars / 80⌋` is zero — `splitToChunks` terminates within
`lineCount` iterations for every input text and every `maxChars` (when no
whole line fits at the cursor it emits that single line as its own chunk
and advances by exactly one line); in particular, if every line's length
exceeds `maxChars`, each line becomes its own single-line chunk, one
iteration per line. -/
theorem splitToChunks_small_overlap (text : String) (maxChars overlap : Nat)
    (hov : overlap < 80) :
    (splitToChunks text maxChars overlap (numLines text)).isSome = true ∧
    ((∀ l ∈ splitLines text, maxChars < l.length) →
      splitToChunks text maxChars overlap (numLines text) =
        some ((List.range' 1 (numLines text)).map
          (fun k => LineChunk.mk ((splitLines text).getD (k - 1) "") k k))) := by
  have hov0 : overlap / 80 = 0 := Nat.div_eq_of_lt hov
  constructor
  · obtain ⟨cs, hcs, _⟩ :=
      chunkLoop_ranges (splitLines text) maxChars overlap hov0 (numLines text) 0
        (by simp [numLines])
    unfold splitToChunks
    rw [hcs]
    rfl
  · intro hlong
    have h := chunkLoop_all_long (splitLines text) maxChars overlap hov0
      (fun l hl => le_of_lt (hlong l hl)) (numLines text) 0 (by simp [numLines])
    unfold splitToChunks
    rw [h]
    simp [numLines]

/-- Witness for `splitToChunks_small_overlap`: on `"ab\ncd"` with
`maxChars = 1` and `overlapChars = 79` the chunker finishes and each
over-long line becomes its own chunk. -/
theorem splitToChunks_small_overlap_witness :
    (splitToChunks "ab\ncd" 1 79 (numLines "ab\ncd")).isSome = true ∧
    splitToChunks "ab\ncd" 1 79 (numLines "ab\ncd") =
      some [LineChunk.mk "ab" 1 1, LineChunk.mk "cd" 2 2] :=
  ⟨(splitToChunks_small_overlap "ab\ncd" 1 79 (by decide)).1,
   by
    have h := (splitToChunks_small_overlap "ab\ncd" 1 79 (by decide)).2 (by decide)
    rw [h]
    decide⟩

/-- C4 counterexample: on the empty string the chunker emits one chunk with
empty text and line range `[1, 1]` — not an empty sequence of chunks —
already at `maxChars = 5`, `overlapChars = 0`. -/
theorem splitToChunks_empty_cex :
    splitToChunks "" 5 0 1 = some [LineChunk.mk "" 1 1] ∧
      splitToChunks "" 5 0 1 ≠ some [] := by
  constructor
  · decide
  · decide

/-- C4 (amended): on the empty string `splitToChunks` returns exactly one
chunk, whose text is empty and whose line range is `[1, 1]` (JavaScript's
`"".split(/\r?\n/)` yields one empty line, which fits any positive
`maxChars`), for every `maxChars > 0` and every `overlapChars`. -/
theorem splitToChunks_empty_amended (maxChars overlap fuel : Nat)
    (hmax : 0 < maxChars) (hfuel : 0 < fuel) :
    splitToChunks "" maxChars overlap fuel = some [LineChunk.mk "" 1 1] := by
  obtain ⟨f, rfl⟩ : ∃ f, fuel = f + 1 := ⟨fuel - 1, by omega⟩
  have hl : splitLines "" = [""] := by decide
  unfold splitToChunks
  rw [hl]
  have hrest : chunkLoop [""] maxChars overlap f 1 = some [] := by
    cases f <;> simp [chunkLoop]
  have hfc : fitCount maxChars 0 ([] : List String) = 0 := rfl
  have hj : joinLines [""] = "" := rfl
  simp [chunkLoop, fitCount, hmax, hrest, hj]

/-- Witness for `splitToChunks_empty_amended` at `maxChars = 5`,
`overlapChars = 7`, two iterations of fuel. -/
theorem splitToChunks_empty_amended_witness :
    splitToChunks "" 5 7 2 = some [LineChunk.mk "" 1 1] :=
  splitToChunks_empty_amended 5 7 2 (by decide) (by decide)

/-- C5: with `overlapChars = 0` the chunker succeeds within `lineCount`
iterations and the emitted chunks' 1-indexed inclusive line ranges, in
emission order, form an exact ordered partition of lines
`1 … lineCount`: every line in exactly one chunk, contiguous, increasing,
no gaps, no duplicates. -/
theorem splitToChunks_partition (text : String) (maxChars : Nat) :
    ∃ cs, splitToChunks text maxChars 0 (numLines text) = some cs ∧
      (cs.map chunkRange).flatten = List.range' 1 (numLines text) := by
  obtain ⟨cs, hcs, hjoin⟩ :=
    chunkLoop_ranges (splitLines text) maxChars 0 (by decide) (numLines text) 0
      (by simp [numLines])
  exact ⟨cs, hcs, by simpa [numLines] using hjoin⟩

/-- Inserting into the stable descending sort keeps the subsequence of any
fixed score unchanged except for prepending the inserted element when its
score matches: elements skipped over all have strictly larger scores. -/
theorem filter_orderedInsert_score (q : ℚ) (x : Chunk × ℚ) :
    ∀ l : List (Chunk × ℚ),
      (List.orderedInsert scoreRel x l).filter (fun p => decide (p.2 = q)) =
        if x.2 = q then x :: l.filter (fun p => decide (p.2 = q))
        else l.filter (fun p => decide (p.2 = q)) := by
  intro l
  induction l with
  | nil =>
    by_cases hxq : x.2 = q <;>
      simp [List.orderedInsert, List.filter_cons, hxq]
  | cons y ys ih =>
    simp only [List.orderedInsert]
    by_cases hxy : scoreRel x y
    · rw [if_pos hxy]
      by_cases hxq : x.2 = q <;> simp [List.filter_cons, hxq]
    · rw [if_neg hxy]
      have hlt : x.2 < y.2 := lt_of_not_le hxy
      by_cases hxq : x.2 = q
      · have hyq : ¬ y.2 = q := by
          intro hyq
          rw [hxq, ← hyq] at hlt
          exact lt_irrefl _ hlt
        simp [List.filter_cons, hxq, hyq, ih]
      · by_cases hyq : y.2 = q <;> simp [List.filter_cons, hxq, hyq, ih]

/-- Stability of the descending sort: for every score value, the
subsequence of elements carrying that score is exactly the input's
subsequence with that score, in the original order — hence ties preserve
original index order. -/
theorem filter_sortByScore (q : ℚ) :
    ∀ l : List (Chunk × ℚ),
      (sortByScore l).filter (fun p => decide (p.2 = q)) =
        l.filter (fun p => decide (p.2 = q)) := by
  intro l
  induction l with
  | nil => rfl
  | cons x xs ih =>
    show (List.orderedInsert scoreRel x (List.insertionSort scoreRel xs)).filter _ = _
    rw [filter_orderedInsert_score q x (List.insertionSort scoreRel xs)]
    by_cases hxq : x.2 = q
    · rw [if_pos hxq]
      rw [show (List.insertionSort scoreRel xs).filter (fun p => decide (p.2 = q)) =
          xs.filter (fun p => decide (p.2 = q)) from ih]
      simp [List.filter_cons, hxq]
    · rw [if_neg hxq]
      rw [show (List.insertionSort scoreRel xs).filter (fun p => decide (p.2 = q)) =
          xs.filter (fun p => decide (p.2 = q)) from ih]
      simp [List.filter_cons, hxq]

/-- C7: for every index, query scoring function and `topK`, the retrieval
pipeline returns at most `topK` chunks; the scored list it ranks from is
sorted by non-increasing score, is a permutation of the scored index
chunks, and the sort is stable (for each score value the tied elements
appear exactly in their original index order) — so the returned ranking is
a deterministic function of the index contents and the query scores. -/
theorem retrieveForDiff_spec (score : List ℚ → ℚ) (chunks : List Chunk) (topK : Nat) :
    (retrieveForDiff score topK chunks).length ≤ topK ∧
    List.Sorted scoreRel ((sortByScore (scoredChunks score chunks)).take topK) ∧
    (sortByScore (scoredChunks score chunks)).Perm (scoredChunks score chunks) ∧
    ∀ q : ℚ, (sortByScore (scoredChunks score chunks)).filter (fun p => decide (p.2 = q)) =
      (scoredChunks score chunks).filter (fun p => decide (p.2 = q)) := by
  refine ⟨?_, ?_, List.perm_insertionSort scoreRel _, fun q => filter_sortByScore q _⟩
  · rw [retrieveForDiff, List.length_map, List.length_take]
    exact min_le_left _ _
  · exact List.Pairwise.sublist (List.take_sublist _ _)
      (List.sorted_insertionSort scoreRel (scoredChunks score chunks))

example :
    retrieveForDiff (fun v => v.headD 0) 1
      [Chunk.mk "i1" "f" 1 2 "t1" "h1" [(1 : ℚ), 0], Chunk.mk "i2" "f" 3 4 "t2" "h2" [(0 : ℚ), 1]] =
      [Chunk.mk "i1" "f" 1 2 "t1" "h1" [(1 : ℚ), 0]] := by decide

example :
    retrieveForDiff (fun v => v.headD 0) 5
      [Chunk.mk "i1" "f" 1 2 "t1" "h1" [(0 : ℚ), 0], Chunk.mk "i2" "f" 3 4 "t2" "h2" [(0 : ℚ), 1]] =
      [Chunk.mk "i1" "f" 1 2 "t1" "h1" [(0 : ℚ), 0], Chunk.mk "i2" "f" 3 4 "t2" "h2" [(0 : ℚ), 1]] := by
  decide
